import Mathlib

/-!
Shallow embedding of water_column_correction.py (the Lyzenga 1978 water
column correction pipeline).  Rasters are rectangular lists of lists of
reals, flattened row-major; numpy float arrays are modelled by real
numbers, except where a property is about IEEE non-finite values, where
the type FloatVal tracks the NaN and signed infinities produced by
np.log on non-positive arguments and by subsequent arithmetic.
-/

/-- Value of a numpy floating point computation: a finite real, a signed
infinity, or NaN. -/
inductive FloatVal where
  | fin : ℝ → FloatVal
  | pinf : FloatVal
  | ninf : FloatVal
  | nan : FloatVal

/-- Whether a numpy value is finite (neither an infinity nor NaN). -/
def FloatVal.isFinite : FloatVal → Bool
  | .fin _ => true
  | _ => false

/-- np.log: natural logarithm for positive arguments, -Inf at zero
(numpy emits a warning but returns), NaN for negative arguments. -/
noncomputable def flog (x : ℝ) : FloatVal :=
  if 0 < x then .fin (Real.log x) else if x = 0 then .ninf else .nan

/-- Row-major flattening of a 2D raster, as numpy band.reshape(-1). -/
def flatten : List (List ℝ) → List ℝ
  | [] => []
  | r :: rs => r ++ flatten rs

/-- Number of samples of a raster. -/
def pixelCount (r : List (List ℝ)) : ℕ := (flatten r).length

/-- Loop body of compute_Xi: for band, dw in zip(bands, list_deep_water),
append np.log(band.reshape(-1) - dw). -/
noncomputable def xiRows : List (List (List ℝ)) → List ℝ → List (List FloatVal)
  | band :: bs, dw :: dws =>
      (flatten band).map (fun x => flog (x - dw)) :: xiRows bs dws
  | _, _ => []

/-- compute_Xi from the source: raises when the two input lists have
different lengths, otherwise returns the list of log-transformed,
offset-subtracted flattened bands. -/
noncomputable def compute_Xi (bands : List (List (List ℝ)))
    (list_deep_water : List ℝ) : Except String (List (List FloatVal)) :=
  if bands.length ≠ list_deep_water.length then
    Except.error "Lists must have the same length."
  else
    Except.ok (xiRows bands list_deep_water)

/-- Sum of squares of a vector, as (b**2).sum() in the source. -/
def sumSq (l : List ℝ) : ℝ := (l.map (fun x => x ^ 2)).sum

/-- Sum of squares of the first k entries, as (b[:k]**2).sum(). -/
def prefSq (b : List ℝ) (k : ℕ) : ℝ := sumSq (b.take k)

/-- One cell of the rotation matrix, following the branch structure of the
source: the final row is the normalized slope vector, cells with j <= i
and j = i+1 carry the Givens-like combination, all others are zero.
x ** (-0.5) on a nonnegative float is embedded as (Real.sqrt x)⁻¹. -/
noncomputable def AijEntry (b : List ℝ) (N i j : ℕ) : ℝ :=
  if i = N - 1 then
    b.getD j 0 * (Real.sqrt (sumSq b))⁻¹
  else if j ≤ i then
    b.getD (i + 1) 0 * b.getD j 0 * (Real.sqrt (prefSq b (i + 1)))⁻¹ *
      (Real.sqrt (prefSq b (i + 2)))⁻¹
  else if j = i + 1 then
    -1 * Real.sqrt (prefSq b (i + 1)) * (Real.sqrt (prefSq b (i + 2)))⁻¹
  else 0

/-- Aij from the source: the N x N coordinate-rotation matrix built cell by
cell from the slope vector b, with N = len(b). -/
noncomputable def Aij (b : List ℝ) : List (List ℝ) :=
  (List.range b.length).map (fun i =>
    (List.range b.length).map (fun j => AijEntry b b.length i j))

/-- One cell of the rotation matrix as the specification states it, written
with divisions: spec prefix b[0..k] (inclusive) is b.take (k+1). -/
noncomputable def AijSpecEntry (b : List ℝ) (N i j : ℕ) : ℝ :=
  if i = N - 1 then
    b.getD j 0 / Real.sqrt (sumSq b)
  else if j ≤ i then
    b.getD (i + 1) 0 * b.getD j 0 /
      (Real.sqrt (prefSq b (i + 1)) * Real.sqrt (prefSq b (i + 2)))
  else if j = i + 1 then
    -(Real.sqrt (prefSq b (i + 1)) / Real.sqrt (prefSq b (i + 2)))
  else 0

/-- The rotation matrix exactly as the specification's closed-form cell
rule states it, to be compared with Aij. -/
noncomputable def AijSpec (b : List ℝ) : List (List ℝ) :=
  (List.range b.length).map (fun i =>
    (List.range b.length).map (fun j => AijSpecEntry b b.length i j))

/-! Ordinary least squares and linear_regression. -/

/-- Denominator of the closed-form OLS coefficient for a single predictor:
M * sum(z^2) - (sum z)^2, which is M^2 times the variance of Z. -/
noncomputable def olsDenom (Z : List ℝ) : ℝ :=
  (Z.length : ℝ) * (Z.map (fun z => z ^ 2)).sum - Z.sum ^ 2

/-- Fitted coefficient of Z in the ordinary-least-squares fit of X against
Z with an intercept term, as computed by sklearn LinearRegression
(closed form for a single predictor). -/
noncomputable def olsCoef (Z X : List ℝ) : ℝ :=
  ((Z.length : ℝ) * (List.zipWith (fun z x => z * x) Z X).sum -
    Z.sum * X.sum) / olsDenom Z

/-- Fitted intercept of the same ordinary-least-squares fit:
mean of X minus the coefficient times the mean of Z. -/
noncomputable def olsIntercept (Z X : List ℝ) : ℝ :=
  (X.sum - olsCoef Z X * Z.sum) / (Z.length : ℝ)

/-- linear_regression from the source: for each X in list_X, raise when
len(X) differs from len(Z), otherwise fit X against Z and record the
negated coefficient as the slope and the intercept, in band order. -/
noncomputable def linear_regression (list_X : List (List ℝ)) (Z : List ℝ) :
    Except String (List ℝ × List ℝ) :=
  match list_X with
  | [] => Except.ok ([], [])
  | X :: rest =>
    if X.length ≠ Z.length then
      Except.error "Xi and Z must be the same length."
    else
      match linear_regression rest Z with
      | Except.error e => Except.error e
      | Except.ok (s, a) =>
          Except.ok (-(olsCoef Z X) :: s, olsIntercept Z X :: a)

/-! Rotation applier: Y_i and depth_invariant. -/

/-- numpy X.transpose() on a rectangular 2D array: row p of the transpose
collects entry p of every row of X. -/
def transposeR (X : List (List ℝ)) : List (List ℝ) :=
  (List.range (X.headD []).length).map
    (fun p => X.map (fun row => row.getD p 0))

/-- Y_i from the source: (A[i,:] * X.transpose()).sum(1), i.e. for every
row of the transpose (one per pixel), the elementwise product with row i
of A, summed. -/
noncomputable def Y_i (i : ℕ) (A X : List (List ℝ)) : List ℝ :=
  (transposeR X).map
    (fun col => (List.zipWith (fun a c => a * c) (A.getD i []) col).sum)

/-- depth_invariant from the source: stack Y_i for i in
range(X.shape[0]). -/
noncomputable def depth_invariant (A X : List (List ℝ)) : List (List ℝ) :=
  (List.range X.length).map (fun i => Y_i i A X)

/-! Reshape stage: np.reshape and reshape_di. -/

/-- C-order chunking of a flat vector into m rows of n entries, the layout
np.reshape produces for a 2D target shape. -/
def chunkList {α : Type} : List α → ℕ → ℕ → List (List α)
  | _, 0, _ => []
  | v, m + 1, n => v.take n :: chunkList (v.drop n) m n

/-- np.shape of a rectangular 2D array: (row count, row length). -/
def shapeOf (b : List (List ℝ)) : ℕ × ℕ := (b.length, (b.headD []).length)

/-- np.reshape of a flat vector to a 2D shape: raises unless the element
counts agree, otherwise fills the target shape in C order. -/
def npReshape (v : List ℝ) (shape : ℕ × ℕ) :
    Except String (List (List ℝ)) :=
  if v.length = shape.1 * shape.2 then
    Except.ok (chunkList v shape.1 shape.2)
  else Except.error "cannot reshape array"

/-- reshape_di from the source: for i in range(di.shape[0]), reshape row i
of di to the shape of bands[i]; indexing bands past its end raises, as
does a reshape size mismatch. -/
def reshape_di : List (List ℝ) → List (List (List ℝ)) →
    Except String (List (List (List ℝ)))
  | [], _ => Except.ok []
  | _ :: _, [] => Except.error "list index out of range"
  | row :: rest, band :: bs =>
    match npReshape row (shapeOf band) with
    | Except.error e => Except.error e
    | Except.ok r =>
      match reshape_di rest bs with
      | Except.error e => Except.error e
      | Except.ok rs => Except.ok (r :: rs)

/-! IEEE non-finite arithmetic, for the silent-propagation behaviour. -/

/-- IEEE multiplication on numpy values: NaN absorbs, zero times an
infinity is NaN, otherwise infinities carry the product's sign. -/
noncomputable def fmul : FloatVal → FloatVal → FloatVal
  | .nan, _ => .nan
  | _, .nan => .nan
  | .fin a, .fin b => .fin (a * b)
  | .fin a, .pinf => if 0 < a then .pinf else if a < 0 then .ninf else .nan
  | .fin a, .ninf => if 0 < a then .ninf else if a < 0 then .pinf else .nan
  | .pinf, .fin b => if 0 < b then .pinf else if b < 0 then .ninf else .nan
  | .ninf, .fin b => if 0 < b then .ninf else if b < 0 then .pinf else .nan
  | .pinf, .pinf => .pinf
  | .pinf, .ninf => .ninf
  | .ninf, .pinf => .ninf
  | .ninf, .ninf => .pinf

/-- IEEE addition on numpy values: NaN absorbs, opposite infinities give
NaN, an infinity plus anything else keeps the infinity. -/
noncomputable def fadd : FloatVal → FloatVal → FloatVal
  | .nan, _ => .nan
  | _, .nan => .nan
  | .fin a, .fin b => .fin (a + b)
  | .fin _, .pinf => .pinf
  | .pinf, .fin _ => .pinf
  | .fin _, .ninf => .ninf
  | .ninf, .fin _ => .ninf
  | .pinf, .pinf => .pinf
  | .ninf, .ninf => .ninf
  | .pinf, .ninf => .nan
  | .ninf, .pinf => .nan

/-- Dot product over numpy values: elementwise product then left-to-right
summation from zero, the per-pixel contraction of Y_i. -/
noncomputable def fdot (u v : List FloatVal) : FloatVal :=
  (List.zipWith fmul u v).foldl fadd (.fin 0)

/-- numpy transpose over FloatVal entries, as in transposeR. -/
def transposeF (X : List (List FloatVal)) : List (List FloatVal) :=
  (List.range (X.headD []).length).map
    (fun p => X.map (fun row => row.getD p .nan))

/-- Y_i over numpy values: the rotation applier with IEEE non-finite
semantics tracked, refining Y_i. -/
noncomputable def Y_iF (i : ℕ) (A X : List (List FloatVal)) :
    List FloatVal :=
  (transposeF X).map (fun col => fdot (A.getD i []) col)

theorem AijEntry_eq_spec (b : List ℝ) (N i j : ℕ) :
    AijEntry b N i j = AijSpecEntry b N i j := by
  unfold AijEntry AijSpecEntry
  split_ifs with h1 h2 h3
  · rw [div_eq_mul_inv]
  · rw [div_eq_mul_inv, mul_inv]; ring
  · rw [div_eq_mul_inv]; ring
  · rfl

/-- C1: for every slope vector of length at least 2, the matrix built by
Aij satisfies the specification's closed-form cell rule (final row is the
normalized slope vector, lower cells carry b[i+1]*b[j] over the product of
prefix norms, the superdiagonal cell is minus the ratio of prefix norms,
all remaining cells are zero). -/
theorem Aij_matches_spec (b : List ℝ) (h : 2 ≤ b.length) :
    Aij b = AijSpec b := by
  unfold Aij AijSpec
  simp [AijEntry_eq_spec]

theorem Aij_matches_spec_witness :
    2 ≤ ([3, 4] : List ℝ).length ∧ Aij [3, 4] = AijSpec [3, 4] :=
  ⟨by simp, Aij_matches_spec [3, 4] (by simp)⟩

/-- C10: for a single-band slope vector with nonzero slope, Aij returns
the 1 x 1 matrix [[b0 / sqrt(b0^2)]], which is [[1]] for positive b0 and
[[-1]] for negative b0; only the final-row branch is taken. -/
theorem Aij_single_band (b0 : ℝ) (h : b0 ≠ 0) :
    Aij [b0] = [[b0 / Real.sqrt (b0 ^ 2)]] ∧
    (0 < b0 → Aij [b0] = [[1]]) ∧ (b0 < 0 → Aij [b0] = [[-1]]) := by
  have hb : Aij [b0] = [[b0 * (Real.sqrt (b0 ^ 2))⁻¹]] := by
    simp [Aij, AijEntry, List.range_succ, sumSq]
  have habs : Real.sqrt (b0 ^ 2) = |b0| := Real.sqrt_sq_eq_abs b0
  refine ⟨by rw [hb, div_eq_mul_inv], ?_, ?_⟩
  · intro hpos
    rw [hb, habs, abs_of_pos hpos, mul_inv_cancel₀ h]
  · intro hneg
    rw [hb, habs, abs_of_neg hneg, ← div_eq_mul_inv, div_neg,
      div_self h]

theorem Aij_single_band_witness :
    (2 : ℝ) ≠ 0 ∧ Aij [2] = [[1]] :=
  ⟨by norm_num, (Aij_single_band 2 (by norm_num)).2.1 (by norm_num)⟩

/-! Generic list and sum bridging lemmas. -/

theorem getD_range_map {α : Type} (f : ℕ → α) (n i : ℕ) (d : α) (h : i < n) :
    ((List.range n).map f).getD i d = f i := by
  rw [List.getD_eq_getElem _ _ (by simpa using h)]
  simp

theorem sum_range_map (f : ℕ → ℝ) (n : ℕ) :
    (((List.range n).map f).sum) = ∑ j ∈ Finset.range n, f j := by
  induction n with
  | zero => simp
  | succ m ih => simp [List.range_succ, Finset.sum_range_succ, ih]

theorem sumSq_eq (l : List ℝ) :
    sumSq l = ∑ j ∈ Finset.range l.length, (l.getD j 0) ^ 2 := by
  induction l with
  | nil => simp [sumSq]
  | cons a t ih =>
    simp only [sumSq, List.map_cons, List.sum_cons, List.length_cons]
    rw [Finset.sum_range_succ']
    simp only [List.getD_cons_succ, List.getD_cons_zero]
    rw [← sumSq, ih]
    ring

theorem getD_take (l : List ℝ) (k j : ℕ) (h : j < k) :
    (l.take k).getD j 0 = l.getD j 0 := by
  induction l generalizing k j with
  | nil => simp
  | cons a t ih =>
    cases k with
    | zero => omega
    | succ m =>
      cases j with
      | zero => simp
      | succ j' => simpa using ih m j' (by omega)

theorem prefSq_eq (b : List ℝ) (k : ℕ) (h : k ≤ b.length) :
    prefSq b k = ∑ j ∈ Finset.range k, (b.getD j 0) ^ 2 := by
  rw [prefSq, sumSq_eq, List.length_take, min_eq_left h]
  exact Finset.sum_congr rfl (fun j hj => by
    rw [getD_take _ _ _ (Finset.mem_range.mp hj)])

theorem sumSq_nonneg (l : List ℝ) : 0 ≤ sumSq l := by
  apply List.sum_nonneg
  intro x hx
  obtain ⟨y, _, rfl⟩ := List.mem_map.mp hx
  positivity

theorem prefSq_length (b : List ℝ) : prefSq b b.length = sumSq b := by
  rw [prefSq, List.take_length]

theorem sum_zipWith_mul (u v : List ℝ) (h : u.length = v.length) :
    (List.zipWith (fun a c => a * c) u v).sum =
      ∑ k ∈ Finset.range u.length, u.getD k 0 * v.getD k 0 := by
  induction u generalizing v with
  | nil => simp
  | cons a t ih =>
    cases v with
    | nil => simp at h
    | cons c w =>
      simp only [List.zipWith_cons_cons, List.sum_cons, List.length_cons]
      rw [Finset.sum_range_succ']
      simp only [List.getD_cons_succ, List.getD_cons_zero]
      rw [ih w (by simpa using h)]
      ring

theorem sum_map_affine (a b : ℝ) (Z : List ℝ) :
    (Z.map (fun z => a - b * z)).sum = a * Z.length - b * Z.sum := by
  induction Z with
  | nil => simp
  | cons z t ih =>
    simp only [List.map_cons, List.sum_cons, List.length_cons, List.sum_cons, ih]
    push_cast
    ring

theorem sum_zip_affine (a b : ℝ) (Z : List ℝ) :
    (List.zipWith (fun z x => z * x) Z (Z.map (fun z => a - b * z))).sum =
      a * Z.sum - b * (Z.map (fun z => z ^ 2)).sum := by
  induction Z with
  | nil => simp
  | cons z t ih =>
    simp only [List.map_cons, List.zipWith_cons_cons, List.sum_cons, ih]
    ring

theorem olsCoef_affine (a b : ℝ) (Z : List ℝ) (hd : olsDenom Z ≠ 0) :
    olsCoef Z (Z.map (fun z => a - b * z)) = -b := by
  unfold olsCoef
  rw [sum_zip_affine, sum_map_affine]
  have : (Z.length : ℝ) * (a * Z.sum - b * (Z.map (fun z => z ^ 2)).sum) -
      Z.sum * (a * Z.length - b * Z.sum) = -b * olsDenom Z := by
    unfold olsDenom; ring
  rw [this, mul_div_assoc, div_self hd, mul_one]

theorem olsIntercept_affine (a b : ℝ) (Z : List ℝ) (hd : olsDenom Z ≠ 0)
    (hM : (Z.length : ℝ) ≠ 0) :
    olsIntercept Z (Z.map (fun z => a - b * z)) = a := by
  unfold olsIntercept
  rw [olsCoef_affine a b Z hd, sum_map_affine]
  field_simp

/-- C5: on noiseless synthetic data X = a - b * Z (one (a, b) pair per
band), with at least two depth samples and nonzero depth variance,
linear_regression returns exactly the generating slopes b and intercepts
a, in band order: it performs ordinary least squares of X against Z and
negates the fitted coefficient, matching the parameterization
X = intercept - slope * Z. -/
theorem linear_regression_recovers (Z : List ℝ) (params : List (ℝ × ℝ))
    (h2 : 2 ≤ Z.length) (hd : olsDenom Z ≠ 0) :
    linear_regression
        (params.map (fun p => Z.map (fun z => p.1 - p.2 * z))) Z =
      Except.ok (params.map (fun p => p.2), params.map (fun p => p.1)) := by
  have hM : (Z.length : ℝ) ≠ 0 := by
    have : Z.length ≠ 0 := by omega
    exact_mod_cast this
  induction params with
  | nil => simp [linear_regression]
  | cons p rest ih =>
    simp only [List.map_cons]
    rw [linear_regression]
    rw [if_neg (by simp)]
    rw [ih]
    rw [olsCoef_affine p.1 p.2 Z hd, olsIntercept_affine p.1 p.2 Z hd hM,
      neg_neg]

theorem linear_regression_recovers_witness :
    (2 ≤ ([1, 2] : List ℝ).length ∧ olsDenom [1, 2] ≠ 0) ∧
      linear_regression [List.map (fun z => 5 - 3 * z) [1, 2]] [1, 2] =
        Except.ok ([3], [5]) := by
  have h2 : 2 ≤ ([1, 2] : List ℝ).length := by simp
  have hd : olsDenom ([1, 2] : List ℝ) ≠ 0 := by
    norm_num [olsDenom]
  refine ⟨⟨h2, hd⟩, ?_⟩
  have := linear_regression_recovers [1, 2] [(5, 3)] h2 hd
  simpa using this

/-! Error behaviour of compute_Xi and linear_regression. -/

theorem compute_Xi_error_iff (bands : List (List (List ℝ))) (offs : List ℝ) :
    (∃ e, compute_Xi bands offs = Except.error e) ↔
      bands.length ≠ offs.length := by
  by_cases h : bands.length ≠ offs.length
  · simp [compute_Xi, h]
  · simp [compute_Xi, h]

theorem linear_regression_error_iff (list_X : List (List ℝ)) (Z : List ℝ) :
    (∃ e, linear_regression list_X Z = Except.error e) ↔
      ∃ X ∈ list_X, X.length ≠ Z.length := by
  induction list_X with
  | nil => simp [linear_regression]
  | cons X rest ih =>
    by_cases hX : X.length ≠ Z.length
    · constructor
      · intro _
        exact ⟨X, List.mem_cons_self X rest, hX⟩
      · intro _
        refine ⟨"Xi and Z must be the same length.", ?_⟩
        rw [linear_regression, if_pos hX]
    · rw [linear_regression, if_neg hX]
      constructor
      · intro he
        obtain ⟨e, he⟩ := he
        rcases hrest : linear_regression rest Z with e' | ⟨s, a⟩
        · obtain ⟨X', hX', hne⟩ := ih.mp ⟨e', hrest⟩
          exact ⟨X', List.mem_cons_of_mem _ hX', hne⟩
        · rw [hrest] at he
          simp at he
      · intro hmem
        obtain ⟨X', hX', hne⟩ := hmem
        rcases List.mem_cons.mp hX' with rfl | hmem'
        · exact absurd hne hX
        · obtain ⟨e, he⟩ := ih.mpr ⟨X', hmem', hne⟩
          rw [he]
          exact ⟨e, rfl⟩

/-- C6: compute_Xi fails with the length-mismatch error exactly when the
band list and the offset list have different lengths (and, failing, yields
no output at all); linear_regression fails with the length-mismatch error
exactly when some Xi has a length different from Z, and the failure is
triggered by the first mismatching band: a mismatching head makes the call
fail no matter what follows. -/
theorem length_mismatch_errors :
    (∀ (bands : List (List (List ℝ))) (offs : List ℝ),
      (∃ e, compute_Xi bands offs = Except.error e) ↔
        bands.length ≠ offs.length) ∧
    (∀ (list_X : List (List ℝ)) (Z : List ℝ),
      (∃ e, linear_regression list_X Z = Except.error e) ↔
        ∃ X ∈ list_X, X.length ≠ Z.length) ∧
    (∀ (X : List ℝ) (rest : List (List ℝ)) (Z : List ℝ),
      X.length ≠ Z.length →
      linear_regression (X :: rest) Z =
        Except.error "Xi and Z must be the same length.") :=
  ⟨compute_Xi_error_iff, linear_regression_error_iff,
    fun X rest Z h => by rw [linear_regression, if_pos h]⟩

theorem length_mismatch_errors_witness :
    ([(1 : ℝ)] : List ℝ).length ≠ ([1, 2] : List ℝ).length ∧
      linear_regression [[(1 : ℝ)]] [1, 2] =
        Except.error "Xi and Z must be the same length." :=
  ⟨by simp, length_mismatch_errors.2.2 [(1 : ℝ)] [] [1, 2] (by simp)⟩

/-! Shape and content of the compute_Xi output. -/

theorem xiRows_length (bands : List (List (List ℝ))) (dws : List ℝ) :
    (xiRows bands dws).length = min bands.length dws.length := by
  induction bands generalizing dws with
  | nil => simp [xiRows]
  | cons b bs ih =>
    cases dws with
    | nil => simp [xiRows]
    | cons dw rest => simp [xiRows, ih, Nat.succ_min_succ]

theorem xiRows_getD (bands : List (List (List ℝ))) (dws : List ℝ) (i : ℕ)
    (hb : i < bands.length) (hd : i < dws.length) :
    (xiRows bands dws).getD i [] =
      (flatten (bands.getD i [])).map (fun x => flog (x - dws.getD i 0)) := by
  induction bands generalizing dws i with
  | nil => simp at hb
  | cons b bs ih =>
    cases dws with
    | nil => simp at hd
    | cons dw rest =>
      cases i with
      | zero => simp [xiRows]
      | succ i' =>
        simp only [xiRows, List.getD_cons_succ]
        exact ih rest i' (by simpa using hb) (by simpa using hd)

theorem getD_map {α β : Type} (f : α → β) (l : List α) (p : ℕ) (d : β)
    (d' : α) (h : p < l.length) :
    (l.map f).getD p d = f (l.getD p d') := by
  rw [List.getD_eq_getElem _ _ (by simpa using h), List.getD_eq_getElem _ _ h]
  simp

/-- C3: for equally long band and offset lists, compute_Xi succeeds with
one output row per band, in band order; row i is the row-major flattening
of band i with offset i subtracted and np.log applied elementwise, its
length is band i's pixel count, and wherever the subtracted sample is
positive the entry is the finite natural logarithm. -/
theorem compute_Xi_rows (bands : List (List (List ℝ))) (offsets : List ℝ)
    (h : bands.length = offsets.length) :
    ∃ X, compute_Xi bands offsets = Except.ok X ∧
      X.length = bands.length ∧
      ∀ i, i < bands.length →
        X.getD i [] =
          (flatten (bands.getD i [])).map
            (fun x => flog (x - offsets.getD i 0)) ∧
        (X.getD i []).length = pixelCount (bands.getD i []) ∧
        ∀ p, p < pixelCount (bands.getD i []) →
          0 < (flatten (bands.getD i [])).getD p 0 - offsets.getD i 0 →
          (X.getD i []).getD p .nan =
            FloatVal.fin
              (Real.log
                ((flatten (bands.getD i [])).getD p 0 - offsets.getD i 0)) := by
  refine ⟨xiRows bands offsets, by simp [compute_Xi, h], ?_, ?_⟩
  · rw [xiRows_length, h, min_self]
  · intro i hi
    have hrow := xiRows_getD bands offsets i hi (h ▸ hi)
    refine ⟨hrow, ?_, ?_⟩
    · rw [hrow, List.length_map]; rfl
    · intro p hp hpos
      rw [hrow, getD_map _ _ _ _ 0 hp, flog, if_pos hpos]

theorem compute_Xi_rows_witness :
    ([[[(2 : ℝ)]]] : List (List (List ℝ))).length = ([1] : List ℝ).length ∧
      compute_Xi [[[(2 : ℝ)]]] [1] =
        Except.ok [[FloatVal.fin (Real.log 1)]] := by
  obtain ⟨X, hX, hlen, hrow⟩ := compute_Xi_rows [[[(2 : ℝ)]]] [1] rfl
  refine ⟨rfl, ?_⟩
  cases X with
  | nil => simp at hlen
  | cons r t =>
    cases t with
    | cons a b => simp at hlen
    | nil =>
      have h0 := (hrow 0 (by norm_num)).1
      simp only [List.getD_cons_zero, List.getD_cons_zero] at h0
      have hfl : flatten [[(2 : ℝ)]] = [2] := by simp [flatten]
      rw [hfl] at h0
      have hv : flog ((2 : ℝ) - 1) = FloatVal.fin (Real.log 1) := by
        norm_num [flog]
      simp only [List.map_cons, List.map_nil, hv] at h0
      rw [hX, h0]

/-- C4: for an N x N matrix A and an N x P matrix X, depth_invariant
computes the matrix product A * X: it stacks, in order, the rows produced
by Y_i for i in 0..N-1, each Y_i row has one entry per pixel, and the
entry at pixel p of row i is the contraction sum over k of
A[i,k] * X[k,p]. -/
theorem depth_invariant_matmul (A X : List (List ℝ)) (N P : ℕ)
    (hA : A.length = N) (hArows : ∀ r ∈ A, r.length = N)
    (hX : X.length = N) (hXrows : ∀ r ∈ X, r.length = P) (hN : 0 < N) :
    depth_invariant A X = (List.range N).map (fun i => Y_i i A X) ∧
    (∀ i, i < N → (Y_i i A X).length = P) ∧
    (∀ i, i < N → ∀ p, p < P →
      (Y_i i A X).getD p 0 =
        ∑ k ∈ Finset.range N,
          (A.getD i []).getD k 0 * (X.getD k []).getD p 0) := by
  have hHead : (X.headD []).length = P := by
    cases X with
    | nil => rw [← hX] at hN; simp at hN
    | cons x0 t => exact hXrows x0 (List.mem_cons_self x0 t)
  refine ⟨by rw [depth_invariant, hX], ?_, ?_⟩
  · intro i hi
    rw [Y_i, List.length_map, transposeR, List.length_map,
      List.length_range, hHead]
  · intro i hi p hp
    have hp' : p < (X.headD []).length := by rw [hHead]; exact hp
    have hiA : i < A.length := by rw [hA]; exact hi
    have hrowA : (A.getD i []).length = N := by
      rw [List.getD_eq_getElem _ _ hiA]
      exact hArows _ (List.getElem_mem hiA)
    rw [Y_i, transposeR, List.map_map]
    rw [getD_range_map _ _ _ _ hp']
    simp only [Function.comp_apply]
    rw [sum_zipWith_mul (A.getD i []) (X.map (fun row => row.getD p 0))
      (by rw [List.length_map, hX, hrowA]), hrowA]
    refine Finset.sum_congr rfl (fun k hk => ?_)
    have hkX : k < X.length := by
      rw [hX]; exact Finset.mem_range.mp hk
    rw [getD_map _ _ _ _ [] hkX]

theorem depth_invariant_matmul_witness :
    (([[1, 0], [0, 1]] : List (List ℝ)).length = 2 ∧
      ([[5, 6], [7, 8]] : List (List ℝ)).length = 2 ∧ 0 < 2) ∧
      (Y_i 0 [[1, 0], [0, 1]] [[5, 6], [7, 8]]).getD 0 0 =
        ∑ k ∈ Finset.range 2,
          (([[1, 0], [0, 1]] : List (List ℝ)).getD 0 []).getD k 0 *
            (([[5, 6], [7, 8]] : List (List ℝ)).getD k []).getD 0 0 := by
  refine ⟨⟨rfl, rfl, by norm_num⟩, ?_⟩
  have h := depth_invariant_matmul [[1, 0], [0, 1]] [[5, 6], [7, 8]] 2 2
    rfl (by intro r hr; simp at hr; rcases hr with rfl | rfl <;> rfl)
    rfl (by intro r hr; simp at hr; rcases hr with rfl | rfl <;> rfl)
    (by norm_num)
  exact h.2.2 0 (by norm_num) 0 (by norm_num)

theorem flatten_length_rect (b : List (List ℝ)) (n : ℕ)
    (h : ∀ row ∈ b, row.length = n) :
    (flatten b).length = b.length * n := by
  induction b with
  | nil => simp [flatten]
  | cons r rs ih =>
    simp only [flatten, List.length_append, List.length_cons]
    rw [h r (List.mem_cons_self r rs),
      ih (fun row hrow => h row (List.mem_cons_of_mem _ hrow))]
    ring

theorem chunk_flatten (b : List (List ℝ)) (n : ℕ)
    (h : ∀ row ∈ b, row.length = n) :
    chunkList (flatten b) b.length n = b := by
  induction b with
  | nil => simp [flatten, chunkList]
  | cons r rs ih =>
    simp only [flatten, List.length_cons, chunkList]
    have hr : r.length = n := h r (List.mem_cons_self r rs)
    have ht : (r ++ flatten rs).take n = r := by
      rw [← hr]; exact List.take_left r (flatten rs)
    have hd : (r ++ flatten rs).drop n = flatten rs := by
      rw [← hr]; exact List.drop_left r (flatten rs)
    rw [ht, hd, ih (fun row hrow => h row (List.mem_cons_of_mem _ hrow))]

theorem npReshape_flatten (b : List (List ℝ))
    (h : ∀ row ∈ b, row.length = (b.headD []).length) :
    npReshape (flatten b) (shapeOf b) = Except.ok b := by
  have hlen : (flatten b).length = (shapeOf b).1 * (shapeOf b).2 := by
    simpa [shapeOf] using flatten_length_rect b _ h
  rw [npReshape, if_pos hlen]
  simpa [shapeOf] using chunk_flatten b _ h

/-- C7: reshape_di inverts flattening exactly: applied to the matrix whose
row i is the row-major flattening of raster i, with the original rasters
supplying the shapes, it returns the original rasters unchanged. -/
theorem reshape_di_roundtrip (bands : List (List (List ℝ)))
    (hrect : ∀ b ∈ bands, ∀ row ∈ b, row.length = (b.headD []).length) :
    reshape_di (bands.map flatten) bands = Except.ok bands := by
  induction bands with
  | nil => rfl
  | cons b bs ih =>
    have h1 : npReshape (flatten b) (shapeOf b) = Except.ok b :=
      npReshape_flatten b (hrect b (List.mem_cons_self b bs))
    have h2 : reshape_di (bs.map flatten) bs = Except.ok bs :=
      ih (fun b' hb' => hrect b' (List.mem_cons_of_mem _ hb'))
    simp only [List.map_cons, reshape_di, h1, h2]

theorem reshape_di_roundtrip_witness :
    (∀ b ∈ ([[[1, 2], [3, 4]]] : List (List (List ℝ))),
      ∀ row ∈ b, row.length = (b.headD []).length) ∧
      reshape_di ([[[1, 2], [3, 4]]].map flatten) [[[1, 2], [3, 4]]] =
        Except.ok [[[(1 : ℝ), 2], [3, 4]]] := by
  have hrect : ∀ b ∈ ([[[1, 2], [3, 4]]] : List (List (List ℝ))),
      ∀ row ∈ b, row.length = (b.headD []).length := by
    intro b hb row hrow
    simp only [List.mem_singleton] at hb
    subst hb
    simp only [List.mem_cons, List.mem_singleton] at hrow
    rcases hrow with rfl | rfl | h
    · rfl
    · rfl
    · simp at h
  exact ⟨hrect, reshape_di_roundtrip [[[1, 2], [3, 4]]] hrect⟩

/-- C8 counterexample: with a one-row di and two bands, the stated
precondition di.shape[0] == len(bands) is violated, yet reshape_di
returns a result (the extra band is silently ignored) instead of failing
with a shape error. -/
theorem reshape_di_claim_false :
    ([[(1 : ℝ)]] : List (List ℝ)).length ≠
        ([[[(1 : ℝ)]], [[2]]] : List (List (List ℝ))).length ∧
      reshape_di [[(1 : ℝ)]] [[[(1 : ℝ)]], [[2]]] =
        Except.ok [[[(1 : ℝ)]]] := by
  refine ⟨by simp, ?_⟩
  rfl

/-- C8 amended: reshape_di fails exactly when some index i below
di.shape[0] either runs past the end of bands (index error) or has a row
whose length differs from the element count of bands[i]'s shape (reshape
error); in particular di having fewer rows than bands does not fail, the
extra bands are ignored. -/
theorem reshape_di_error_iff (di : List (List ℝ))
    (bands : List (List (List ℝ))) :
    (∃ e, reshape_di di bands = Except.error e) ↔
      ∃ i, i < di.length ∧
        (bands.length ≤ i ∨
          (di.getD i []).length ≠
            (bands.getD i []).length * ((bands.getD i []).headD []).length) := by
  induction di generalizing bands with
  | nil => simp [reshape_di]
  | cons row rest ih =>
    cases bands with
    | nil =>
      refine iff_of_true ⟨"list index out of range", rfl⟩
        ⟨0, by simp, Or.inl (by simp)⟩
    | cons band bs =>
      by_cases hfit : row.length = (shapeOf band).1 * (shapeOf band).2
      · have h1 : npReshape row (shapeOf band) =
            Except.ok (chunkList row (shapeOf band).1 (shapeOf band).2) := by
          rw [npReshape, if_pos hfit]
        have hstep : ∀ e, reshape_di (row :: rest) (band :: bs) =
            Except.error e ↔ reshape_di rest bs = Except.error e := by
          intro e
          simp only [reshape_di, h1]
          rcases hr : reshape_di rest bs with e' | rs <;> simp
        constructor
        · rintro ⟨e, he⟩
          obtain ⟨i, hi, hcond⟩ := (ih bs).mp ⟨e, (hstep e).mp he⟩
          refine ⟨i + 1, by simpa using Nat.succ_lt_succ hi, ?_⟩
          rcases hcond with hc | hc
          · exact Or.inl (by simpa using Nat.succ_le_succ hc)
          · exact Or.inr (by simpa using hc)
        · rintro ⟨i, hi, hcond⟩
          cases i with
          | zero =>
            rcases hcond with hc | hc
            · simp at hc
            · exact absurd hfit (by simpa [shapeOf] using hc)
          | succ i' =>
            have hcond' : bs.length ≤ i' ∨
                (rest.getD i' []).length ≠
                  (bs.getD i' []).length * ((bs.getD i' []).headD []).length := by
              rcases hcond with hc | hc
              · exact Or.inl (by simpa using hc)
              · exact Or.inr (by simpa using hc)
            obtain ⟨e, he⟩ := (ih bs).mpr ⟨i', by simpa using hi, hcond'⟩
            exact ⟨e, (hstep e).mpr he⟩
      · refine iff_of_true ⟨"cannot reshape array", ?_⟩
          ⟨0, by simp, Or.inr (by simpa [shapeOf] using hfit)⟩
        simp only [reshape_di, npReshape, if_neg hfit]

theorem fmul_not_finite_right (x y : FloatVal) (h : y.isFinite = false) :
    (fmul x y).isFinite = false := by
  cases x <;> cases y <;>
    simp_all [fmul, FloatVal.isFinite] <;> split_ifs <;>
    simp [FloatVal.isFinite]

theorem fadd_not_finite (x y : FloatVal)
    (h : x.isFinite = false ∨ y.isFinite = false) :
    (fadd x y).isFinite = false := by
  cases x <;> cases y <;> simp_all [fadd, FloatVal.isFinite]

theorem foldl_fadd_not_finite (l : List FloatVal) (acc : FloatVal)
    (h : acc.isFinite = false ∨ ∃ v ∈ l, v.isFinite = false) :
    ((l.foldl fadd acc).isFinite = false) := by
  induction l generalizing acc with
  | nil =>
    rcases h with h | ⟨v, hv, _⟩
    · simpa using h
    · simp at hv
  | cons w t ih =>
    rcases h with h | ⟨v, hv, hnf⟩
    · exact ih (fadd acc w) (Or.inl (fadd_not_finite _ _ (Or.inl h)))
    · rcases List.mem_cons.mp hv with rfl | hv'
      · exact ih (fadd acc v) (Or.inl (fadd_not_finite _ _ (Or.inr hnf)))
      · exact ih (fadd acc w) (Or.inr ⟨v, hv', hnf⟩)

theorem fdot_not_finite (u v : List FloatVal) (k : ℕ)
    (hu : k < u.length) (hv : k < v.length)
    (h : (v.getD k .nan).isFinite = false) :
    (fdot u v).isFinite = false := by
  have hk : k < (List.zipWith fmul u v).length := by
    rw [List.length_zipWith]; omega
  have hel : (List.zipWith fmul u v).getD k .nan =
      fmul (u.getD k .nan) (v.getD k .nan) := by
    rw [List.getD_eq_getElem _ _ hk, List.getD_eq_getElem _ _ hu,
      List.getD_eq_getElem _ _ hv]
    exact List.getElem_zipWith ..
  apply foldl_fadd_not_finite
  refine Or.inr ⟨(List.zipWith fmul u v).getD k .nan, ?_, ?_⟩
  · rw [List.getD_eq_getElem _ _ hk]
    exact List.getElem_mem hk
  · rw [hel]
    exact fmul_not_finite_right _ _ h

/-- C9: with matching list lengths but some sample at or below its deep
water offset, compute_Xi does not raise: it returns a full result (one row
per band, one entry per pixel) whose affected entries are NaN where the
sample is strictly below the offset and -Inf where it equals the offset;
and a non-finite entry at pixel p of any band makes the later rotation
stage produce a non-finite value at pixel p of every output band, without
raising. -/
theorem compute_Xi_nonpositive_domain
    (bands : List (List (List ℝ))) (offsets : List ℝ)
    (hlen : bands.length = offsets.length)
    (hbad : ∃ i, i < bands.length ∧ ∃ x ∈ flatten (bands.getD i []),
      x ≤ offsets.getD i 0) :
    (∃ X, compute_Xi bands offsets = Except.ok X ∧
      X.length = bands.length ∧
      ∀ i, i < bands.length →
        (X.getD i []).length = pixelCount (bands.getD i []) ∧
        ∀ p, p < pixelCount (bands.getD i []) →
          ((flatten (bands.getD i [])).getD p 0 < offsets.getD i 0 →
            (X.getD i []).getD p .nan = FloatVal.nan) ∧
          ((flatten (bands.getD i [])).getD p 0 = offsets.getD i 0 →
            (X.getD i []).getD p .nan = FloatVal.ninf)) ∧
    (∀ (A X : List (List FloatVal)) (i k p : ℕ),
      k < X.length → k < (A.getD i []).length → p < (X.headD []).length →
      ((X.getD k []).getD p .nan).isFinite = false →
      ((Y_iF i A X).getD p .nan).isFinite = false) := by
  constructor
  · refine ⟨xiRows bands offsets, by simp [compute_Xi, hlen], ?_, ?_⟩
    · rw [xiRows_length, hlen, min_self]
    · intro i hi
      have hrow := xiRows_getD bands offsets i hi (hlen ▸ hi)
      refine ⟨by rw [hrow, List.length_map]; rfl, ?_⟩
      intro p hp
      constructor
      · intro hlt
        rw [hrow, getD_map _ _ _ _ 0 hp, flog,
          if_neg (by linarith), if_neg (by linarith)]
      · intro heq
        rw [hrow, getD_map _ _ _ _ 0 hp, flog,
          if_neg (by rw [heq]; simp), if_pos (by rw [heq]; ring)]
  · intro A X i k p hkX hkA hp hnf
    have hY : (Y_iF i A X).getD p .nan =
        fdot (A.getD i []) (X.map (fun row => row.getD p .nan)) := by
      rw [Y_iF, transposeF, List.map_map]
      exact getD_range_map _ _ _ _ hp
    rw [hY]
    refine fdot_not_finite _ _ k hkA (by rw [List.length_map]; exact hkX) ?_
    rw [getD_map _ _ _ _ [] hkX]
    exact hnf

theorem compute_Xi_nonpositive_domain_witness :
    (([[[(1 : ℝ), 2]]] : List (List (List ℝ))).length =
        ([2] : List ℝ).length ∧ (1 : ℝ) ≤ 2) ∧
      compute_Xi [[[(1 : ℝ), 2]]] [2] =
        Except.ok [[FloatVal.nan, FloatVal.ninf]] := by
  have hbad : ∃ i, i < ([[[(1 : ℝ), 2]]] : List (List (List ℝ))).length ∧
      ∃ x ∈ flatten (([[[(1 : ℝ), 2]]] :
        List (List (List ℝ))).getD i []), x ≤ ([2] : List ℝ).getD i 0 := by
    refine ⟨0, by norm_num, 1, by simp [flatten], by norm_num⟩
  obtain ⟨⟨X, hX, hlen, hrow⟩, _⟩ :=
    compute_Xi_nonpositive_domain [[[(1 : ℝ), 2]]] [2] rfl hbad
  refine ⟨⟨rfl, by norm_num⟩, ?_⟩
  cases X with
  | nil => simp at hlen
  | cons r t =>
    cases t with
    | cons a b => simp at hlen
    | nil =>
      obtain ⟨hrlen, hent⟩ := hrow 0 (by norm_num)
      simp only [List.getD_cons_zero] at hrlen hent
      have h0 := (hent 0 (by simp [pixelCount, flatten])).1
        (by simp [flatten])
      have h1 := (hent 1 (by simp [pixelCount, flatten])).2
        (by simp [flatten])
      cases r with
      | nil => simp [pixelCount, flatten] at hrlen
      | cons v1 s =>
        cases s with
        | nil => simp [pixelCount, flatten] at hrlen
        | cons v2 s2 =>
          cases s2 with
          | cons c d => simp [pixelCount, flatten] at hrlen
          | nil =>
            simp only [List.getD_cons_zero, List.getD_cons_succ] at h0 h1
            rw [hX, h0, h1]

/-! Orthonormality of the rotation matrix. -/

theorem AijEntry_last (b : List ℝ) (N j : ℕ) :
    AijEntry b N (N - 1) j = b.getD j 0 * (Real.sqrt (sumSq b))⁻¹ := by
  unfold AijEntry
  rw [if_pos rfl]

theorem AijEntry_low (b : List ℝ) (N i j : ℕ) (hi : i ≠ N - 1)
    (hj : j ≤ i) :
    AijEntry b N i j =
      b.getD (i + 1) 0 * b.getD j 0 * (Real.sqrt (prefSq b (i + 1)))⁻¹ *
        (Real.sqrt (prefSq b (i + 2)))⁻¹ := by
  unfold AijEntry
  rw [if_neg hi, if_pos hj]

theorem AijEntry_diag (b : List ℝ) (N i : ℕ) (hi : i ≠ N - 1) :
    AijEntry b N i (i + 1) =
      -1 * Real.sqrt (prefSq b (i + 1)) *
        (Real.sqrt (prefSq b (i + 2)))⁻¹ := by
  unfold AijEntry
  rw [if_neg hi, if_neg (by omega), if_pos rfl]

theorem AijEntry_zero (b : List ℝ) (N i j : ℕ) (hi : i ≠ N - 1)
    (hj : i + 2 ≤ j) : AijEntry b N i j = 0 := by
  unfold AijEntry
  rw [if_neg hi, if_neg (by omega), if_neg (by omega)]

theorem sumSq_range_map (f : ℕ → ℝ) (n : ℕ) :
    sumSq ((List.range n).map f) = ∑ j ∈ Finset.range n, f j ^ 2 := by
  rw [sumSq, List.map_map, sum_range_map]
  simp only [Function.comp_apply]

theorem prefSq_step (b : List ℝ) (i : ℕ) (h : i + 2 ≤ b.length) :
    prefSq b (i + 2) = prefSq b (i + 1) + b.getD (i + 1) 0 ^ 2 := by
  rw [prefSq_eq b (i + 2) h, prefSq_eq b (i + 1) (by omega),
    Finset.sum_range_succ]

theorem row_norm_inner (b : List ℝ) (i : ℕ) (hi : i + 2 ≤ b.length)
    (hS1 : 0 < prefSq b (i + 1)) (hS2 : 0 < prefSq b (i + 2)) :
    ∑ j ∈ Finset.range b.length, AijEntry b b.length i j ^ 2 = 1 := by
  have hine : i ≠ b.length - 1 := by omega
  have hsub : ∑ j ∈ Finset.range b.length, AijEntry b b.length i j ^ 2 =
      ∑ j ∈ Finset.range (i + 2), AijEntry b b.length i j ^ 2 := by
    refine (Finset.sum_subset (Finset.range_subset.mpr hi) ?_).symm
    intro j _ hj
    rw [AijEntry_zero b _ i j hine
      (by simpa using (Finset.mem_range.not.mp hj))]
    norm_num
  rw [hsub, Finset.sum_range_succ]
  have hlow : ∀ j ∈ Finset.range (i + 1),
      AijEntry b b.length i j ^ 2 =
        b.getD j 0 ^ 2 *
          (b.getD (i + 1) 0 ^ 2 *
            ((Real.sqrt (prefSq b (i + 1)))⁻¹ ^ 2 *
              (Real.sqrt (prefSq b (i + 2)))⁻¹ ^ 2)) := by
    intro j hj
    have hj' : j ≤ i := by
      have := Finset.mem_range.mp hj; omega
    rw [AijEntry_low b _ i j hine hj']
    ring
  rw [Finset.sum_congr rfl hlow, ← Finset.sum_mul,
    ← prefSq_eq b (i + 1) (by omega), AijEntry_diag b _ i hine]
  have hu2 : Real.sqrt (prefSq b (i + 1)) ^ 2 = prefSq b (i + 1) :=
    Real.sq_sqrt hS1.le
  have hv2 : Real.sqrt (prefSq b (i + 2)) ^ 2 = prefSq b (i + 2) :=
    Real.sq_sqrt hS2.le
  have hui : (Real.sqrt (prefSq b (i + 1)))⁻¹ ^ 2 =
      (prefSq b (i + 1))⁻¹ := by rw [inv_pow, hu2]
  have hvi : (Real.sqrt (prefSq b (i + 2)))⁻¹ ^ 2 =
      (prefSq b (i + 2))⁻¹ := by rw [inv_pow, hv2]
  have hdiag : (-1 * Real.sqrt (prefSq b (i + 1)) *
      (Real.sqrt (prefSq b (i + 2)))⁻¹) ^ 2 =
      Real.sqrt (prefSq b (i + 1)) ^ 2 *
        (Real.sqrt (prefSq b (i + 2)))⁻¹ ^ 2 := by ring
  rw [hdiag, hui, hvi, hu2]
  have hS1ne : prefSq b (i + 1) ≠ 0 := ne_of_gt hS1
  have hS2ne : prefSq b (i + 2) ≠ 0 := ne_of_gt hS2
  have hfin : prefSq b (i + 1) *
      (b.getD (i + 1) 0 ^ 2 *
        ((prefSq b (i + 1))⁻¹ * (prefSq b (i + 2))⁻¹)) =
      (prefSq b (i + 1) * (prefSq b (i + 1))⁻¹) *
        (b.getD (i + 1) 0 ^ 2 * (prefSq b (i + 2))⁻¹) := by ring
  rw [hfin, mul_inv_cancel₀ hS1ne, one_mul]
  have hcollect : b.getD (i + 1) 0 ^ 2 * (prefSq b (i + 2))⁻¹ +
      prefSq b (i + 1) * (prefSq b (i + 2))⁻¹ =
      (prefSq b (i + 1) + b.getD (i + 1) 0 ^ 2) *
        (prefSq b (i + 2))⁻¹ := by ring
  rw [hcollect, ← prefSq_step b i hi, mul_inv_cancel₀ hS2ne]

theorem row_dot_inner (b : List ℝ) (i : ℕ) (hi : i + 2 ≤ b.length)
    (hS1 : 0 < prefSq b (i + 1)) (hS2 : 0 < prefSq b (i + 2)) :
    ∑ k ∈ Finset.range b.length,
      AijEntry b b.length i k * b.getD k 0 = 0 := by
  have hine : i ≠ b.length - 1 := by omega
  have hsub : ∑ k ∈ Finset.range b.length,
      AijEntry b b.length i k * b.getD k 0 =
      ∑ k ∈ Finset.range (i + 2),
        AijEntry b b.length i k * b.getD k 0 := by
    refine (Finset.sum_subset (Finset.range_subset.mpr hi) ?_).symm
    intro k _ hk
    rw [AijEntry_zero b _ i k hine
      (by simpa using (Finset.mem_range.not.mp hk))]
    norm_num
  rw [hsub, Finset.sum_range_succ]
  have hlow : ∀ k ∈ Finset.range (i + 1),
      AijEntry b b.length i k * b.getD k 0 =
        b.getD k 0 ^ 2 *
          (b.getD (i + 1) 0 *
            ((Real.sqrt (prefSq b (i + 1)))⁻¹ *
              (Real.sqrt (prefSq b (i + 2)))⁻¹)) := by
    intro k hk
    have hk' : k ≤ i := by
      have := Finset.mem_range.mp hk; omega
    rw [AijEntry_low b _ i k hine hk']
    ring
  rw [Finset.sum_congr rfl hlow, ← Finset.sum_mul,
    ← prefSq_eq b (i + 1) (by omega), AijEntry_diag b _ i hine]
  have key : prefSq b (i + 1) * (Real.sqrt (prefSq b (i + 1)))⁻¹ =
      Real.sqrt (prefSq b (i + 1)) := by
    rw [← div_eq_mul_inv]
    exact Real.div_sqrt
  have hsplit : prefSq b (i + 1) *
      (b.getD (i + 1) 0 *
        ((Real.sqrt (prefSq b (i + 1)))⁻¹ *
          (Real.sqrt (prefSq b (i + 2)))⁻¹)) =
      (prefSq b (i + 1) * (Real.sqrt (prefSq b (i + 1)))⁻¹) *
        (b.getD (i + 1) 0 * (Real.sqrt (prefSq b (i + 2)))⁻¹) := by ring
  rw [hsplit, key]
  ring

/-- C2: for a slope vector of length N at least 2 whose prefix sums of
squares are all nonzero, Aij is an orthonormal rotation: row N-1 is the
slope vector divided by its Euclidean norm, every row has unit sum of
squares, and applying the matrix to the slope vector (as an N x 1 column
through the pipeline's own rotation applier) yields zero in every
component except the last. -/
theorem Aij_orthonormal (b : List ℝ) (h2 : 2 ≤ b.length)
    (hpre : ∀ k, 1 ≤ k → k ≤ b.length → prefSq b k ≠ 0) :
    (Aij b).getD (b.length - 1) [] =
      b.map (fun x => x / Real.sqrt (sumSq b)) ∧
    (∀ i, i < b.length → sumSq ((Aij b).getD i []) = 1) ∧
    (∀ i, i < b.length - 1 →
      ((depth_invariant (Aij b) (b.map (fun x => [x]))).getD i []).getD 0 0
        = 0) := by
  have hpos : ∀ k, 1 ≤ k → k ≤ b.length → 0 < prefSq b k := by
    intro k h1 hk
    exact lt_of_le_of_ne (sumSq_nonneg _) (Ne.symm (hpre k h1 hk))
  have hS : 0 < sumSq b := by
    have := hpos b.length (by omega) le_rfl
    rwa [prefSq_length] at this
  have hrow : ∀ i, i < b.length →
      (Aij b).getD i [] =
        (List.range b.length).map (fun j => AijEntry b b.length i j) := by
    intro i hi
    rw [Aij]
    exact getD_range_map _ _ _ _ hi
  refine ⟨?_, ?_, ?_⟩
  · rw [hrow _ (by omega)]
    refine List.ext_getElem (by simp) ?_
    intro j hj1 hj2
    have hjb : j < b.length := by simpa using hj2
    rw [List.getElem_map, List.getElem_range, List.getElem_map,
      AijEntry_last, List.getD_eq_getElem _ _ hjb, div_eq_mul_inv]
  · intro i hi
    rw [hrow i hi, sumSq_range_map]
    by_cases hlast : i = b.length - 1
    · subst hlast
      have hsq : ∀ j ∈ Finset.range b.length,
          AijEntry b b.length (b.length - 1) j ^ 2 =
            b.getD j 0 ^ 2 * ((Real.sqrt (sumSq b))⁻¹ ^ 2) := by
        intro j _
        rw [AijEntry_last]
        ring
      rw [Finset.sum_congr rfl hsq, ← Finset.sum_mul, ← sumSq_eq,
        inv_pow, Real.sq_sqrt hS.le, mul_inv_cancel₀ (ne_of_gt hS)]
    · have hi2 : i + 2 ≤ b.length := by omega
      exact row_norm_inner b i hi2 (hpos (i + 1) (by omega) (by omega))
        (hpos (i + 2) (by omega) hi2)
  · intro i hi
    have hiN : i < b.length := by omega
    have hhead : ((b.map (fun x => [x])).headD []).length = 1 := by
      cases b with
      | nil => simp at h2
      | cons q0 t => simp
    rw [depth_invariant, List.length_map,
      getD_range_map _ _ _ _ hiN, Y_i, transposeR, List.map_map,
      getD_range_map _ _ _ _ (by rw [hhead]; omega)]
    simp only [Function.comp_apply]
    have hXcol : (b.map (fun x => [x])).map (fun row => row.getD 0 0) =
        b := by
      rw [List.map_map]
      simp only [Function.comp_def, List.getD_cons_zero]
      exact List.map_id b
    rw [hXcol, hrow i hiN]
    rw [sum_zipWith_mul _ _ (by rw [List.length_map, List.length_range])]
    simp only [List.length_map, List.length_range]
    have hterm : ∀ k ∈ Finset.range b.length,
        ((List.range b.length).map
          (fun j => AijEntry b b.length i j)).getD k 0 * b.getD k 0 =
          AijEntry b b.length i k * b.getD k 0 := by
      intro k hk
      rw [getD_range_map _ _ _ _ (Finset.mem_range.mp hk)]
    rw [Finset.sum_congr rfl hterm]
    have hi2 : i + 2 ≤ b.length := by omega
    exact row_dot_inner b i hi2 (hpos (i + 1) (by omega) (by omega))
      (hpos (i + 2) (by omega) hi2)

theorem Aij_orthonormal_witness :
    (2 ≤ ([3, 4] : List ℝ).length ∧ prefSq [3, 4] 1 ≠ 0 ∧
        prefSq [3, 4] 2 ≠ 0) ∧
      sumSq ((Aij [3, 4]).getD 0 []) = 1 := by
  have hp1 : prefSq ([3, 4] : List ℝ) 1 ≠ 0 := by
    norm_num [prefSq, sumSq, List.take]
  have hp2 : prefSq ([3, 4] : List ℝ) 2 ≠ 0 := by
    norm_num [prefSq, sumSq, List.take]
  have hpre : ∀ k, 1 ≤ k → k ≤ ([3, 4] : List ℝ).length →
      prefSq [3, 4] k ≠ 0 := by
    intro k h1 hk
    have hk2 : k ≤ 2 := by simpa using hk
    interval_cases k
    · exact hp1
    · exact hp2
  refine ⟨⟨by simp, hp1, hp2⟩, ?_⟩
  exact (Aij_orthonormal [3, 4] (by simp) hpre).2.1 0 (by simp)
